import Mathlib

/-!
Verification of the indexing and retrieval engine of the repository:
a shallow embedding of `src/python/lambda_indexer.py` (chunking,
per-file embedding aggregation, project indexing, cosine-similarity
search, index persistence) and of the debounce logic of
`src/python/auto_index.py`, together with theorems settling the
specification claims about them.

Numeric idealisation: vector components are rationals (`ℚ`); the
real-valued cosine score `dot q v / (‖q‖ * ‖v‖)` is represented
exactly by the pair `(dot q v, ‖q‖² * ‖v‖²)` and compared through a
decidable order proved equivalent to the order of the represented
real numbers.
-/

/- ### Python `str.split()` and `' '.join` -/

/-- Worker for `pySplit`: `acc` is the current in-progress word, reversed. -/
def pySplitAux : List Char → List Char → List (List Char)
  | [], acc => if acc = [] then [] else [acc.reverse]
  | c :: cs, acc =>
    if c.isWhitespace then
      if acc = [] then pySplitAux cs [] else acc.reverse :: pySplitAux cs []
    else pySplitAux cs (c :: acc)

/-- Python `text.split()` with no separator: split on runs of whitespace,
discarding empty pieces. -/
def pySplit (s : List Char) : List (List Char) := pySplitAux s []

/-- Python `' '.join(pieces)`. -/
def joinSp (l : List (List Char)) : List Char := List.intercalate [' '] l

/- ### `LambdaProjectIndexer._chunk_text` -/

/-- One iteration of the `for word in words` loop of `_chunk_text`:
append the word to `current_chunk`; when
`len(' '.join(current_chunk).split()) >= max_length`, emit
`' '.join(current_chunk)` and reset the accumulator.  State is
`(chunks, current_chunk)`. -/
def chunkStep (maxLength : ℕ) (st : List (List Char) × List (List Char))
    (w : List Char) : List (List Char) × List (List Char) :=
  let cur := st.2 ++ [w]
  if maxLength ≤ (pySplit (joinSp cur)).length then (st.1 ++ [joinSp cur], [])
  else (st.1, cur)

/-- Tail of `_chunk_text` after the word loop: append the pending
accumulator when non-empty, and return `[text]` when no chunk was
produced. -/
def chunkFinish (text : List Char) (st : List (List Char) × List (List Char)) :
    List (List Char) :=
  let chunks := if st.2 = [] then st.1 else st.1 ++ [joinSp st.2]
  if chunks = [] then [text] else chunks

/-- Model of `LambdaProjectIndexer._chunk_text(text, max_length)`. -/
def chunk_text (text : List Char) (maxLength : ℕ) : List (List Char) :=
  chunkFinish text ((pySplit text).foldl (chunkStep maxLength) ([], []))

/- ### Structural facts about `pySplit` -/

/-- A word is well-formed when it is non-empty and contains no whitespace. -/
def WfWord (w : List Char) : Prop := w ≠ [] ∧ ∀ c ∈ w, ¬ c.isWhitespace

theorem pySplitAux_wf (s : List Char) :
    ∀ acc, (∀ c ∈ acc, ¬ c.isWhitespace) →
      ∀ w ∈ pySplitAux s acc, WfWord w := by
  induction s with
  | nil =>
    intro acc hacc w hw
    simp only [pySplitAux] at hw
    by_cases h : acc = []
    · simp [h] at hw
    · simp [h] at hw
      subst hw
      exact ⟨by simpa using h, fun c hc => hacc c (List.mem_reverse.mp hc)⟩
  | cons c cs ih =>
    intro acc hacc w hw
    simp only [pySplitAux] at hw
    by_cases hws : c.isWhitespace
    · simp [hws] at hw
      by_cases h : acc = []
      · simp [h] at hw
        exact ih [] (by simp) w hw
      · simp [h] at hw
        rcases hw with hw | hw
        · subst hw
          exact ⟨by simpa using h, fun x hx => hacc x (List.mem_reverse.mp hx)⟩
        · exact ih [] (by simp) w hw
    · simp [hws] at hw
      have hacc' : ∀ x ∈ c :: acc, ¬ x.isWhitespace := by
        intro x hx
        rcases List.mem_cons.mp hx with h | h
        · subst h; simpa using hws
        · exact hacc x h
      exact ih (c :: acc) hacc' w hw

/-- Every word produced by `pySplit` is non-empty and whitespace-free. -/
theorem pySplit_wf (s : List Char) : ∀ w ∈ pySplit s, WfWord w :=
  pySplitAux_wf s [] (by simp)

theorem pySplitAux_append_space (b : List Char) :
    ∀ (a acc : List Char),
      pySplitAux (a ++ ' ' :: b) acc = pySplitAux a acc ++ pySplitAux b [] := by
  intro a
  induction a with
  | nil =>
    intro acc
    simp only [List.nil_append, pySplitAux]
    have hsp : (' ').isWhitespace = true := by decide
    by_cases h : acc = []
    · simp [hsp, h]
    · simp [hsp, h]
  | cons c cs ih =>
    intro acc
    simp only [List.cons_append, pySplitAux]
    by_cases hws : c.isWhitespace
    · by_cases h : acc = []
      · simp [hws, h, ih]
      · simp [hws, h, ih]
    · simp [hws, ih]

/-- Splitting a space-joined concatenation splits each piece independently. -/
theorem pySplit_append_space (a b : List Char) :
    pySplit (a ++ ' ' :: b) = pySplit a ++ pySplit b := by
  simpa [pySplit] using pySplitAux_append_space b a []

theorem joinSp_cons_cons (a b : List Char) (t : List (List Char)) :
    joinSp (a :: b :: t) = a ++ ' ' :: joinSp (b :: t) := by
  simp [joinSp, List.intercalate, List.intersperse]

theorem joinSp_single (a : List Char) : joinSp [a] = a := by
  simp [joinSp, List.intercalate]

/-- Splitting a space-joined list splits each piece independently. -/
theorem pySplit_joinSp (l : List (List Char)) :
    pySplit (joinSp l) = l.flatMap pySplit := by
  induction l with
  | nil => simp [joinSp, List.intercalate, pySplit, pySplitAux]
  | cons a t ih =>
    cases t with
    | nil => simp [joinSp_single]
    | cons b t' =>
      rw [joinSp_cons_cons, pySplit_append_space, ih]
      simp

/-- A well-formed word splits to itself. -/
theorem pySplit_wfWord (w : List Char) (hw : WfWord w) : pySplit w = [w] := by
  obtain ⟨hne, hws⟩ := hw
  suffices h : ∀ (u acc : List Char), (∀ c ∈ u, ¬ c.isWhitespace) → acc ≠ [] →
      pySplitAux u acc = [acc.reverse ++ u] by
    cases w with
    | nil => exact absurd rfl hne
    | cons c cs =>
      have hc : ¬ c.isWhitespace := hws c (by simp)
      have := h cs [c] (fun x hx => hws x (by simp [hx])) (by simp)
      simp [pySplit, pySplitAux, hc, this]
  intro u
  induction u with
  | nil => intro acc _ hacc; simp [pySplitAux, hacc]
  | cons c cs ih =>
    intro acc hu hacc
    have hc : ¬ c.isWhitespace := hu c (by simp)
    rw [pySplitAux]
    rw [if_neg (by simpa using hc), ih (c :: acc) (fun x hx => hu x (by simp [hx])) (by simp)]
    simp

/-- All words of a well-formed list split back to the list itself. -/
theorem flatMap_pySplit_wf (l : List (List Char)) (h : ∀ w ∈ l, WfWord w) :
    l.flatMap pySplit = l := by
  induction l with
  | nil => simp
  | cons a t ih =>
    simp only [List.flatMap_cons]
    rw [pySplit_wfWord a (h a (by simp)), ih (fun w hw => h w (by simp [hw]))]
    simp

theorem chunkFinish_eq (text : List Char) (st : List (List Char) × List (List Char)) :
    chunkFinish text st =
      if st.2 = [] then (if st.1 = [] then [text] else st.1)
      else st.1 ++ [joinSp st.2] := by
  unfold chunkFinish
  by_cases h2 : st.2 = [] <;> by_cases h1 : st.1 = [] <;> simp [h2, h1]

/-- Invariant of the chunking fold: the words of the emitted chunks followed by
the pending accumulator are exactly the words consumed so far, and the
accumulator stays well-formed. -/
theorem chunk_fold_invariant (maxLength : ℕ) (words : List (List Char)) :
    ∀ st : List (List Char) × List (List Char),
      (∀ w ∈ words, WfWord w) → (∀ w ∈ st.2, WfWord w) →
      (words.foldl (chunkStep maxLength) st).1.flatMap pySplit ++
          (words.foldl (chunkStep maxLength) st).2 =
        st.1.flatMap pySplit ++ st.2 ++ words ∧
      (∀ w ∈ (words.foldl (chunkStep maxLength) st).2, WfWord w) := by
  induction words with
  | nil => intro st _ hst; simpa using hst
  | cons w ws ih =>
    intro st hws hst
    have hw : WfWord w := hws w (by simp)
    have hcur : ∀ x ∈ st.2 ++ [w], WfWord x := by
      intro x hx
      rcases List.mem_append.mp hx with h | h
      · exact hst x h
      · simp at h; subst h; exact hw
    have hws' : ∀ x ∈ ws, WfWord x := fun x hx => hws x (by simp [hx])
    simp only [List.foldl_cons]
    by_cases hcond : maxLength ≤ (pySplit (joinSp (st.2 ++ [w]))).length
    · have hstep : chunkStep maxLength st w = (st.1 ++ [joinSp (st.2 ++ [w])], []) := by
        simp [chunkStep, hcond]
      rw [hstep]
      have := ih (st.1 ++ [joinSp (st.2 ++ [w])], []) hws' (by simp)
      refine ⟨?_, this.2⟩
      rw [this.1]
      simp only [List.flatMap_append]
      rw [show ([joinSp (st.2 ++ [w])] : List (List Char)).flatMap pySplit
            = pySplit (joinSp (st.2 ++ [w])) by simp]
      rw [pySplit_joinSp, flatMap_pySplit_wf _ hcur]
      simp
    · have hstep : chunkStep maxLength st w = (st.1, st.2 ++ [w]) := by
        simp [chunkStep, hcond]
      rw [hstep]
      have := ih (st.1, st.2 ++ [w]) hws' hcur
      refine ⟨?_, this.2⟩
      rw [this.1]
      simp

/-- C3: for every input text and every `max_words ≥ 1`, joining the chunks
returned by `_chunk_text` with single spaces and re-splitting on whitespace
yields exactly the original whitespace-delimited token sequence of the
input. -/
theorem C3_chunk_token_roundtrip (text : List Char) (max_words : ℕ)
    (h : 1 ≤ max_words) :
    pySplit (joinSp (chunk_text text max_words)) = pySplit text := by
  clear h
  have hwords := pySplit_wf text
  obtain ⟨hmain, hwf2⟩ :=
    chunk_fold_invariant max_words (pySplit text) ([], []) hwords (by simp)
  rcases hfold : (pySplit text).foldl (chunkStep max_words) ([], []) with ⟨cs, cur⟩
  rw [hfold] at hmain hwf2
  simp only [List.flatMap_nil, List.nil_append] at hmain
  unfold chunk_text
  rw [hfold, chunkFinish_eq]
  by_cases h2 : cur = []
  · subst h2
    simp only [if_pos rfl]
    by_cases h1 : cs = []
    · have htext : pySplit text = [] := by
        rw [← hmain, h1]; simp
      simp [h1, joinSp_single, htext]
    · rw [if_neg h1, pySplit_joinSp]
      simpa using hmain
  · simp only [if_neg h2]
    rw [pySplit_joinSp]
    simp only [List.flatMap_append]
    rw [show ([joinSp cur] : List (List Char)).flatMap pySplit
          = pySplit (joinSp cur) by simp]
    rw [pySplit_joinSp, flatMap_pySplit_wf _ hwf2]
    exact hmain

/-- Witness for C3 at a concrete text and `max_words = 2`. -/
theorem C3_witness :
    1 ≤ 2 ∧ pySplit (joinSp (chunk_text ('a' :: ' ' :: 'b' :: ' ' :: 'c' :: []) 2))
      = pySplit ('a' :: ' ' :: 'b' :: ' ' :: 'c' :: []) :=
  ⟨by decide, C3_chunk_token_roundtrip _ 2 (by decide)⟩

/- ### Python dicts as insertion-ordered association lists -/

/-- Keys of a dict, in iteration order. -/
def dictKeys {β : Type} (d : List (String × β)) : List String := d.map Prod.fst

/-- Python `d[k]` as an `Option` (a `none` models an uncaught `KeyError`). -/
def dictLookup {β : Type} (d : List (String × β)) (k : String) : Option β :=
  match d with
  | [] => none
  | e :: rest => if e.1 = k then some e.2 else dictLookup rest k

/-- Python `d[k] = v`: overwrite in place when the key exists (iteration
order is preserved), append at the end otherwise. -/
def dictInsert {β : Type} (d : List (String × β)) (k : String) (v : β) :
    List (String × β) :=
  if k ∈ dictKeys d then d.map (fun e => if e.1 = k then (k, v) else e)
  else d ++ [(k, v)]

theorem dictLookup_map_overwrite_ne {β : Type} (k : String) (v : β) (p : String)
    (h : k ≠ p) (d : List (String × β)) :
    dictLookup (d.map (fun e => if e.1 = k then (k, v) else e)) p = dictLookup d p := by
  induction d with
  | nil => rfl
  | cons e rest ih =>
    rcases e with ⟨k', v'⟩
    by_cases he : k' = k
    · simp [dictLookup, he, h, ih]
    · by_cases hp : k' = p
      · simp [dictLookup, he, hp, Ne.symm h]
      · simp [dictLookup, he, hp, ih]

theorem dictLookup_append_single_ne {β : Type} (k : String) (v : β) (p : String)
    (h : k ≠ p) (d : List (String × β)) :
    dictLookup (d ++ [(k, v)]) p = dictLookup d p := by
  induction d with
  | nil => simp [dictLookup, h]
  | cons e rest ih =>
    rcases e with ⟨k', v'⟩
    by_cases hp : k' = p
    · simp [dictLookup, hp]
    · simp [dictLookup, hp, ih]

theorem dictLookup_dictInsert_ne {β : Type} (d : List (String × β)) (k : String)
    (v : β) (p : String) (h : k ≠ p) :
    dictLookup (dictInsert d k v) p = dictLookup d p := by
  unfold dictInsert
  by_cases hmem : k ∈ dictKeys d
  · rw [if_pos hmem]
    exact dictLookup_map_overwrite_ne k v p h d
  · rw [if_neg hmem]
    exact dictLookup_append_single_ne k v p h d

/- ### Indexer state -/

/-- One value of the `self.metadata` dict:
`{'absolute_path': ..., 'extension': ..., 'size': ...}`. -/
structure FileMeta where
  absolute_path : String
  extension : String
  size : ℤ
deriving DecidableEq, Repr

/-- The mutable state of `LambdaProjectIndexer`: the `self.embeddings` and
`self.metadata` dicts. -/
structure IndexerState where
  embeddings : List (String × List ℚ)
  metadata : List (String × FileMeta)
deriving DecidableEq, Repr

/- ### Persistence: `save_index` / `load_index` -/

/-- The two companion artifacts written by `save_index(output_path)`:
the contents of `<output_path>_embeddings.npz` (one named array per key,
in insertion order) and of `<output_path>_metadata.json`. -/
structure SavedIndex where
  emb_file : List (String × List ℚ)
  meta_file : List (String × FileMeta)
deriving DecidableEq, Repr

/-- Model of `LambdaProjectIndexer.save_index`. -/
def save_index (st : IndexerState) : SavedIndex :=
  ⟨st.embeddings, st.metadata⟩

/-- Outcome of `load_index`: either it returns normally, or an uncaught
exception escapes it; in both cases the indexer is left in the recorded
state (the body has no exception handler). -/
inductive LoadResult where
  | ok (st : IndexerState)
  | raised (st : IndexerState)
deriving DecidableEq, Repr

/-- Model of `LambdaProjectIndexer.load_index(input_path)` reading artifacts that may
be absent (`none` models a missing file).  `np.load` runs first and raises
when the vectors file is missing; `self.embeddings` is then replaced before
the metadata document is opened, so a missing metadata file raises with the
embeddings already overwritten.  No consistency check of any kind is
performed between the two artifacts. -/
def load_index (emb : Option (List (String × List ℚ)))
    (meta : Option (List (String × FileMeta))) (st : IndexerState) : LoadResult :=
  match emb with
  | none => .raised st
  | some e =>
    match meta with
    | none => .raised { st with embeddings := e }
    | some m => .ok ⟨e, m⟩

/-- Per-vector closeness up to an absolute tolerance. -/
def vecWithin : List ℚ → List ℚ → ℚ → Bool
  | [], [], _ => true
  | x :: xs, y :: ys, ε => decide (|x - y| ≤ ε) && vecWithin xs ys ε
  | _, _, _ => false

/-- Keyed stores agree key-for-key with vectors within tolerance `ε`. -/
def storeWithin : List (String × List ℚ) → List (String × List ℚ) → ℚ → Bool
  | [], [], _ => true
  | (k, u) :: a, (k', v) :: b, ε => decide (k = k') && vecWithin u v ε && storeWithin a b ε
  | _, _, _ => false

theorem vecWithin_refl (u : List ℚ) (ε : ℚ) (hε : 0 ≤ ε) : vecWithin u u ε = true := by
  induction u with
  | nil => rfl
  | cons x xs ih => simp [vecWithin, ih, hε]

theorem storeWithin_refl (a : List (String × List ℚ)) (ε : ℚ) (hε : 0 ≤ ε) :
    storeWithin a a ε = true := by
  induction a with
  | nil => rfl
  | cons e rest ih =>
    rcases e with ⟨k, u⟩
    simp [storeWithin, vecWithin_refl u ε hε, ih]

/-- C2: `save_index` followed by `load_index` into a fresh indexer restores
an embeddings mapping with the identical key set, vectors within `1e-6`
absolute tolerance of the pre-save ones, and an identical metadata
mapping. -/
theorem C2_save_load_roundtrip (st fresh : IndexerState) :
    ∃ st', load_index (some (save_index st).emb_file)
        (some (save_index st).meta_file) fresh = .ok st' ∧
      dictKeys st'.embeddings = dictKeys st.embeddings ∧
      storeWithin st'.embeddings st.embeddings (1 / 1000000) = true ∧
      st'.metadata = st.metadata := by
  refine ⟨⟨st.embeddings, st.metadata⟩, rfl, rfl, ?_, rfl⟩
  exact storeWithin_refl st.embeddings (1 / 1000000) (by norm_num)

/-- C6 counterexample: a mismatched pair of artifacts — the key `"a"` is
present in the vector container but absent from the metadata document —
loads successfully; `load_index` does not fail on the mismatch. -/
theorem C6_counterexample :
    load_index (some [("a", [1])]) (some []) ⟨[], []⟩ = .ok ⟨[("a", [1])], []⟩ := rfl

/-- C6 (amended): `load_index` raises an uncaught error when either
companion artifact is missing — the error propagates to the caller rather
than being confined, and a missing metadata document leaves the embeddings
already replaced — while a pair of present artifacts is loaded with no
consistency check at all: mismatched key sets load successfully, and no
`CorruptIndex` condition exists. -/
theorem C6_load_failure_behaviour (e : List (String × List ℚ))
    (m : List (String × FileMeta)) (meta : Option (List (String × FileMeta)))
    (st : IndexerState) :
    load_index none meta st = .raised st ∧
    load_index (some e) none st = .raised { st with embeddings := e } ∧
    load_index (some e) (some m) st = .ok ⟨e, m⟩ :=
  ⟨rfl, rfl, rfl⟩

/- ### `index_project` -/

/-- One file encountered by the `os.walk` traversal in `index_project`,
together with the outcome of the `try` body for it: `embed_result = none`
models `open`/`embed_file` raising (the file is skipped by the `except`
branch), `some v` is the embedding it produced. -/
structure WalkFile where
  rel_path : String
  absolute_path : String
  extension : String
  size : ℤ
  embed_result : Option (List ℚ)
deriving DecidableEq, Repr

/-- Per-file body of `index_project`: on success store the embedding and
the metadata entry under the relative path; on failure the `except` branch
only prints and the state is unchanged. -/
def indexStep (st : IndexerState) (f : WalkFile) : IndexerState :=
  match f.embed_result with
  | none => st
  | some v =>
    { embeddings := dictInsert st.embeddings f.rel_path v
      metadata := dictInsert st.metadata f.rel_path
        ⟨f.absolute_path, f.extension, f.size⟩ }

/-- Model of `LambdaProjectIndexer.index_project`: fold the per-file step over the
files produced by the (filtered) directory walk.  Note that it only ever
inserts or overwrites entries; it never removes any. -/
def index_project (st : IndexerState) (files : List WalkFile) : IndexerState :=
  files.foldl indexStep st

theorem index_project_preserves_other (st : IndexerState) (files : List WalkFile)
    (p : String) (h : ∀ f ∈ files, f.rel_path ≠ p) :
    dictLookup (index_project st files).embeddings p = dictLookup st.embeddings p ∧
    dictLookup (index_project st files).metadata p = dictLookup st.metadata p := by
  induction files generalizing st with
  | nil => exact ⟨rfl, rfl⟩
  | cons f fs ih =>
    have hf : f.rel_path ≠ p := h f (by simp)
    have hrest := ih (indexStep st f) (fun g hg => h g (by simp [hg]))
    refine ⟨?_, ?_⟩
    · rw [show index_project st (f :: fs) = index_project (indexStep st f) fs from rfl,
        hrest.1]
      cases hres : f.embed_result with
      | none => simp [indexStep, hres]
      | some v => simp [indexStep, hres, dictLookup_dictInsert_ne _ _ _ _ hf]
    · rw [show index_project st (f :: fs) = index_project (indexStep st f) fs from rfl,
        hrest.2]
      cases hres : f.embed_result with
      | none => simp [indexStep, hres]
      | some v => simp [indexStep, hres, dictLookup_dictInsert_ne _ _ _ _ hf]

/-- C5: the code keeps dangling entries.  Failing input: a store that has
indexed `a.py`; `a.py` is then deleted from the project tree, so the
subsequent re-index walks only the remaining file `b.md` — yet the store
still contains the embedding and the metadata entry of `a.py`, because
`index_project` only inserts and never removes. -/
theorem C5_deleted_file_entry_persists :
    dictLookup (index_project
        ⟨[("a.py", [1])], [("a.py", ⟨"/proj/a.py", ".py", 10⟩)]⟩
        [⟨"b.md", "/proj/b.md", ".md", 5, some [2]⟩]).embeddings "a.py"
      = some [1] ∧
    dictLookup (index_project
        ⟨[("a.py", [1])], [("a.py", ⟨"/proj/a.py", ".py", 10⟩)]⟩
        [⟨"b.md", "/proj/b.md", ".md", 5, some [2]⟩]).metadata "a.py"
      = some ⟨"/proj/a.py", ".py", 10⟩ := by
  constructor <;> rfl

theorem index_project_lookup_none (st : IndexerState) (files : List WalkFile)
    (p : String)
    (he : dictLookup st.embeddings p = none)
    (hm : dictLookup st.metadata p = none)
    (hall : ∀ g ∈ files, g.rel_path = p → g.embed_result = none) :
    dictLookup (index_project st files).embeddings p = none ∧
    dictLookup (index_project st files).metadata p = none := by
  induction files generalizing st with
  | nil => exact ⟨he, hm⟩
  | cons f fs ih =>
    have hstep : dictLookup (indexStep st f).embeddings p = none ∧
        dictLookup (indexStep st f).metadata p = none := by
      cases hres : f.embed_result with
      | none => simpa [indexStep, hres] using ⟨he, hm⟩
      | some v =>
        have hf : f.rel_path ≠ p := by
          intro hcontra
          have := hall f (by simp) hcontra
          rw [this] at hres
          exact Option.noConfusion hres
        constructor
        · rw [show (indexStep st f).embeddings
              = dictInsert st.embeddings f.rel_path v by simp [indexStep, hres]]
          rw [dictLookup_dictInsert_ne _ _ _ _ hf]
          exact he
        · rw [show (indexStep st f).metadata
              = dictInsert st.metadata f.rel_path ⟨f.absolute_path, f.extension, f.size⟩
              by simp [indexStep, hres]]
          rw [dictLookup_dictInsert_ne _ _ _ _ hf]
          exact hm
    exact ih (indexStep st f) hstep.1 hstep.2 (fun g hg => hall g (by simp [hg]))

/-- C7: a per-file read/embed failure is absorbed by the `except` branch:
the batch result is as if the failing file had not been walked at all
(every remaining file is still indexed identically), and — provided the
path was not already present and no other walked file succeeds under the
same path — the failing file contributes no embedding and no metadata
entry. -/
theorem C7_per_file_failure_isolated (st : IndexerState)
    (pre post : List WalkFile) (f : WalkFile) (hf : f.embed_result = none) :
    index_project st (pre ++ f :: post) = index_project st (pre ++ post) ∧
    (dictLookup st.embeddings f.rel_path = none →
      dictLookup st.metadata f.rel_path = none →
      (∀ g ∈ pre ++ post, g.rel_path = f.rel_path → g.embed_result = none) →
      dictLookup (index_project st (pre ++ f :: post)).embeddings f.rel_path = none ∧
      dictLookup (index_project st (pre ++ f :: post)).metadata f.rel_path = none) := by
  have hskip : ∀ s : IndexerState, indexStep s f = s := by
    intro s
    simp [indexStep, hf]
  have hsplice : index_project st (pre ++ f :: post) = index_project st (pre ++ post) := by
    unfold index_project
    rw [List.foldl_append, List.foldl_cons, hskip, ← List.foldl_append]
  refine ⟨hsplice, fun he hm hall => ?_⟩
  rw [hsplice]
  exact index_project_lookup_none st (pre ++ post) f.rel_path he hm hall

/-- Witness for C7: one failing file between two successful ones. -/
theorem C7_witness :
    (⟨"bad.py", "/p/bad.py", ".py", 7, none⟩ : WalkFile).embed_result = none ∧
    (index_project ⟨[], []⟩
        ([⟨"x.py", "/p/x.py", ".py", 1, some [1]⟩] ++
          ⟨"bad.py", "/p/bad.py", ".py", 7, none⟩ ::
          [⟨"y.md", "/p/y.md", ".md", 2, some [2]⟩])
      = index_project ⟨[], []⟩
        ([⟨"x.py", "/p/x.py", ".py", 1, some [1]⟩] ++
          [⟨"y.md", "/p/y.md", ".md", 2, some [2]⟩]) ∧
    (dictLookup (⟨[], []⟩ : IndexerState).embeddings "bad.py" = none →
      dictLookup (⟨[], []⟩ : IndexerState).metadata "bad.py" = none →
      (∀ g ∈ [⟨"x.py", "/p/x.py", ".py", 1, some [1]⟩] ++
          [⟨"y.md", "/p/y.md", ".md", 2, some [2]⟩],
        WalkFile.rel_path g = "bad.py" → WalkFile.embed_result g = none) →
      dictLookup (index_project ⟨[], []⟩
          ([⟨"x.py", "/p/x.py", ".py", 1, some [1]⟩] ++
            ⟨"bad.py", "/p/bad.py", ".py", 7, none⟩ ::
            [⟨"y.md", "/p/y.md", ".md", 2, some [2]⟩])).embeddings "bad.py" = none ∧
      dictLookup (index_project ⟨[], []⟩
          ([⟨"x.py", "/p/x.py", ".py", 1, some [1]⟩] ++
            ⟨"bad.py", "/p/bad.py", ".py", 7, none⟩ ::
            [⟨"y.md", "/p/y.md", ".md", 2, some [2]⟩])).metadata "bad.py" = none)) :=
  ⟨rfl, C7_per_file_failure_isolated ⟨[], []⟩ _ _ _ rfl⟩

/- ### Watcher debounce (`ProjectFileHandler.trigger_reindex`) -/

/-- Model of `ProjectFileHandler.trigger_reindex`, with `last` the stored
`self.last_reindex`, `now` the value of `time.time()` when the event
arrives, `relevant` the result of `should_index(event.src_path)`, and
`succeeds` telling whether `index_project` + `save_index` complete without
raising.  Result: the new `self.last_reindex` and whether a re-index was
triggered.  The timestamp is assigned only after a successful re-index. -/
def trigger_reindex (reindex_delay : ℚ) (last now : ℚ)
    (relevant succeeds : Bool) : ℚ × Bool :=
  if now - last < reindex_delay then (last, false)
  else if relevant then
    (if succeeds then (now, true) else (last, true))
  else (last, false)

/-- C9: with the default 2-second window, an event arriving strictly within
the window of the recorded timestamp triggers no re-index and leaves the
watcher state unchanged (dropped, not queued); and the recorded timestamp
ever changes only when a relevant event triggered a re-index that completed
without error. -/
theorem C9_debounce_drop_and_success_only_timestamp
    (last now : ℚ) (relevant succeeds : Bool) (h : now - last < 2) :
    trigger_reindex 2 last now relevant succeeds = (last, false) ∧
    (∀ (now' : ℚ) (r s : Bool),
      (trigger_reindex 2 last now' r s).1 ≠ last →
      r = true ∧ s = true ∧ (trigger_reindex 2 last now' r s).2 = true ∧
        (trigger_reindex 2 last now' r s).1 = now') := by
  constructor
  · simp [trigger_reindex, h]
  · intro now' r s hchange
    unfold trigger_reindex at hchange ⊢
    by_cases h1 : now' - last < 2
    · simp [h1] at hchange
    · cases r with
      | false => simp [h1] at hchange
      | true =>
        cases s with
        | false => simp [h1] at hchange
        | true => simp [h1]

/-- Witness for C9 at `last = 10`, `now = 11` (elapsed `1 < 2`). -/
theorem C9_witness :
    (11 : ℚ) - 10 < 2 ∧
    (trigger_reindex 2 10 11 true true = (10, false) ∧
    (∀ (now' : ℚ) (r s : Bool),
      (trigger_reindex 2 10 now' r s).1 ≠ 10 →
      r = true ∧ s = true ∧ (trigger_reindex 2 10 now' r s).2 = true ∧
        (trigger_reindex 2 10 now' r s).1 = now')) :=
  ⟨by norm_num, C9_debounce_drop_and_success_only_timestamp 10 11 true true (by norm_num)⟩

/- ### Cosine similarity scores -/

/-- Dot product `np.dot` of two vectors. -/
def dot (a b : List ℚ) : ℚ := (List.zipWith (· * ·) a b).sum

/-- The score computed in `search` for a stored vector `v` against the query
embedding `q` is `np.dot(q, v) / (np.linalg.norm(q) * np.linalg.norm(v))`,
the real number `dot q v / √(dot q q * dot v v)`.  It is represented exactly
by the pair `(dot q v, dot q q * dot v v)`: a pair `(x, a)` stands for the
real value `x / √a`. -/
def scoreOf (q v : List ℚ) : ℚ × ℚ := (dot q v, dot q q * dot v v)

/-- Sign of the real value `x / √a` represented by the pair `(x, a)`
(with `√a = 0` for `a ≤ 0`, and the convention `x / 0 = 0`). -/
def scoreSign (s : ℚ × ℚ) : ℤ :=
  if s.2 ≤ 0 then 0 else if s.1 < 0 then -1 else if s.1 = 0 then 0 else 1

/-- Decidable comparison of the real values represented by two score pairs:
compare signs first, and for equal non-zero signs compare the squares
cleared of denominators. -/
def scoreLE (s t : ℚ × ℚ) : Bool :=
  if scoreSign s < scoreSign t then true
  else if scoreSign t < scoreSign s then false
  else if scoreSign s = 0 then true
  else if scoreSign s = 1 then decide (s.1 ^ 2 * t.2 ≤ t.1 ^ 2 * s.2)
  else decide (t.1 ^ 2 * s.2 ≤ s.1 ^ 2 * t.2)

theorem scoreSign_cases (s : ℚ × ℚ) :
    scoreSign s = -1 ∨ scoreSign s = 0 ∨ scoreSign s = 1 := by
  unfold scoreSign
  split_ifs <;> simp

theorem scoreSign_eq_zero_val (s : ℚ × ℚ) (h : scoreSign s = 0) :
    (s.1 : ℝ) / Real.sqrt (s.2 : ℝ) = 0 := by
  unfold scoreSign at h
  by_cases h2 : s.2 ≤ 0
  · have : Real.sqrt (s.2 : ℝ) = 0 := Real.sqrt_eq_zero'.mpr (by exact_mod_cast h2)
    rw [this, div_zero]
  · rw [if_neg h2] at h
    by_cases hneg : s.1 < 0
    · rw [if_pos hneg] at h
      exact absurd h (by decide)
    · rw [if_neg hneg] at h
      by_cases heq : s.1 = 0
      · rw [heq]
        simp
      · rw [if_neg heq] at h
        exact absurd h (by decide)

theorem scoreSign_eq_neg_one_elim (s : ℚ × ℚ) (h : scoreSign s = -1) :
    0 < s.2 ∧ s.1 < 0 := by
  unfold scoreSign at h
  by_cases h2 : s.2 ≤ 0
  · rw [if_pos h2] at h
    exact absurd h (by decide)
  · rw [if_neg h2] at h
    by_cases hneg : s.1 < 0
    · exact ⟨lt_of_not_le h2, hneg⟩
    · rw [if_neg hneg] at h
      by_cases heq : s.1 = 0
      · rw [if_pos heq] at h
        exact absurd h (by decide)
      · rw [if_neg heq] at h
        exact absurd h (by decide)

theorem scoreSign_eq_one_elim (s : ℚ × ℚ) (h : scoreSign s = 1) :
    0 < s.2 ∧ 0 < s.1 := by
  unfold scoreSign at h
  by_cases h2 : s.2 ≤ 0
  · rw [if_pos h2] at h
    exact absurd h (by decide)
  · rw [if_neg h2] at h
    by_cases hneg : s.1 < 0
    · rw [if_pos hneg] at h
      exact absurd h (by decide)
    · rw [if_neg hneg] at h
      by_cases heq : s.1 = 0
      · rw [if_pos heq] at h
        exact absurd h (by decide)
      · exact ⟨lt_of_not_le h2, lt_of_le_of_ne (not_lt.mp hneg) (Ne.symm heq)⟩

theorem scoreSign_eq_neg_val (s : ℚ × ℚ) (h : scoreSign s = -1) :
    (s.1 : ℝ) / Real.sqrt (s.2 : ℝ) < 0 := by
  obtain ⟨h2, hneg⟩ := scoreSign_eq_neg_one_elim s h
  have hpos : (0 : ℝ) < Real.sqrt (s.2 : ℝ) :=
    Real.sqrt_pos.mpr (by exact_mod_cast h2)
  exact div_neg_of_neg_of_pos (by exact_mod_cast hneg) hpos

theorem scoreSign_eq_pos_val (s : ℚ × ℚ) (h : scoreSign s = 1) :
    0 < (s.1 : ℝ) / Real.sqrt (s.2 : ℝ) := by
  obtain ⟨h2, hposx⟩ := scoreSign_eq_one_elim s h
  have hpos : (0 : ℝ) < Real.sqrt (s.2 : ℝ) :=
    Real.sqrt_pos.mpr (by exact_mod_cast h2)
  exact div_pos (by exact_mod_cast hposx) hpos

theorem scoreSign_lt_val (s t : ℚ × ℚ) (h : scoreSign s < scoreSign t) :
    (s.1 : ℝ) / Real.sqrt (s.2 : ℝ) < (t.1 : ℝ) / Real.sqrt (t.2 : ℝ) := by
  rcases scoreSign_cases s with hs | hs | hs <;>
    rcases scoreSign_cases t with ht | ht | ht <;>
      rw [hs, ht] at h
  · omega
  · have h1 := scoreSign_eq_neg_val s hs
    have h2 := scoreSign_eq_zero_val t ht
    linarith
  · have h1 := scoreSign_eq_neg_val s hs
    have h2 := scoreSign_eq_pos_val t ht
    linarith
  · omega
  · omega
  · have h1 := scoreSign_eq_zero_val s hs
    have h2 := scoreSign_eq_pos_val t ht
    linarith
  · omega
  · omega
  · omega

/-- The decidable order on score pairs coincides with the order of the
represented real values `x / √a`. -/
theorem scoreLE_iff (s t : ℚ × ℚ) :
    scoreLE s t = true ↔
      (s.1 : ℝ) / Real.sqrt (s.2 : ℝ) ≤ (t.1 : ℝ) / Real.sqrt (t.2 : ℝ) := by
  unfold scoreLE
  split_ifs with h1 h2 h3 h4
  · simp only [true_iff]
    exact (scoreSign_lt_val s t h1).le
  · simp only [Bool.false_eq_true, false_iff, not_le]
    exact scoreSign_lt_val t s h2
  · have hts : scoreSign t = 0 := by omega
    simp only [true_iff]
    rw [scoreSign_eq_zero_val s h3, scoreSign_eq_zero_val t hts]
  · -- both signs are 1: positive values, compare squares cleared of roots
    have hts : scoreSign t = 1 := by omega
    obtain ⟨ha, hx⟩ := scoreSign_eq_one_elim s h4
    obtain ⟨hb, hy⟩ := scoreSign_eq_one_elim t hts
    have haR : (0 : ℝ) < (s.2 : ℝ) := by exact_mod_cast ha
    have hbR : (0 : ℝ) < (t.2 : ℝ) := by exact_mod_cast hb
    have hxR : (0 : ℝ) < (s.1 : ℝ) := by exact_mod_cast hx
    have hyR : (0 : ℝ) < (t.1 : ℝ) := by exact_mod_cast hy
    have hsA : (0 : ℝ) < Real.sqrt (s.2 : ℝ) := Real.sqrt_pos.mpr haR
    have hsB : (0 : ℝ) < Real.sqrt (t.2 : ℝ) := Real.sqrt_pos.mpr hbR
    rw [decide_eq_true_iff, div_le_div_iff₀ hsA hsB]
    have hstep : (s.1 : ℝ) * Real.sqrt (t.2 : ℝ) ≤ (t.1 : ℝ) * Real.sqrt (s.2 : ℝ) ↔
        (s.1 : ℝ) ^ 2 * (t.2 : ℝ) ≤ (t.1 : ℝ) ^ 2 * (s.2 : ℝ) := by
      rw [mul_self_le_mul_self_iff
        (mul_nonneg hxR.le (Real.sqrt_nonneg _))
        (mul_nonneg hyR.le (Real.sqrt_nonneg _))]
      constructor
      · intro hsq
        calc (s.1 : ℝ) ^ 2 * (t.2 : ℝ)
            = ((s.1 : ℝ) * Real.sqrt (t.2 : ℝ)) * ((s.1 : ℝ) * Real.sqrt (t.2 : ℝ)) := by
              rw [show ((s.1 : ℝ) * Real.sqrt (t.2 : ℝ)) * ((s.1 : ℝ) * Real.sqrt (t.2 : ℝ))
                  = (s.1 : ℝ) ^ 2 * (Real.sqrt (t.2 : ℝ)) ^ 2 by ring,
                Real.sq_sqrt hbR.le]
          _ ≤ ((t.1 : ℝ) * Real.sqrt (s.2 : ℝ)) * ((t.1 : ℝ) * Real.sqrt (s.2 : ℝ)) := hsq
          _ = (t.1 : ℝ) ^ 2 * (s.2 : ℝ) := by
              rw [show ((t.1 : ℝ) * Real.sqrt (s.2 : ℝ)) * ((t.1 : ℝ) * Real.sqrt (s.2 : ℝ))
                  = (t.1 : ℝ) ^ 2 * (Real.sqrt (s.2 : ℝ)) ^ 2 by ring,
                Real.sq_sqrt haR.le]
      · intro hsq
        calc ((s.1 : ℝ) * Real.sqrt (t.2 : ℝ)) * ((s.1 : ℝ) * Real.sqrt (t.2 : ℝ))
            = (s.1 : ℝ) ^ 2 * (t.2 : ℝ) := by
              rw [show ((s.1 : ℝ) * Real.sqrt (t.2 : ℝ)) * ((s.1 : ℝ) * Real.sqrt (t.2 : ℝ))
                  = (s.1 : ℝ) ^ 2 * (Real.sqrt (t.2 : ℝ)) ^ 2 by ring,
                Real.sq_sqrt hbR.le]
          _ ≤ (t.1 : ℝ) ^ 2 * (s.2 : ℝ) := hsq
          _ = ((t.1 : ℝ) * Real.sqrt (s.2 : ℝ)) * ((t.1 : ℝ) * Real.sqrt (s.2 : ℝ)) := by
              rw [show ((t.1 : ℝ) * Real.sqrt (s.2 : ℝ)) * ((t.1 : ℝ) * Real.sqrt (s.2 : ℝ))
                  = (t.1 : ℝ) ^ 2 * (Real.sqrt (s.2 : ℝ)) ^ 2 by ring,
                Real.sq_sqrt haR.le]
    rw [hstep]
    constructor
    · intro h; exact_mod_cast h
    · intro h; exact_mod_cast h
  · -- both signs are -1: negative values, squaring reverses the comparison
    have hss : scoreSign s = -1 := by
      rcases scoreSign_cases s with h | h | h
      · exact h
      · exact absurd h h3
      · exact absurd h h4
    have hts : scoreSign t = -1 := by omega
    obtain ⟨ha, hx⟩ := scoreSign_eq_neg_one_elim s hss
    obtain ⟨hb, hy⟩ := scoreSign_eq_neg_one_elim t hts
    have haR : (0 : ℝ) < (s.2 : ℝ) := by exact_mod_cast ha
    have hbR : (0 : ℝ) < (t.2 : ℝ) := by exact_mod_cast hb
    have hxR : (s.1 : ℝ) < 0 := by exact_mod_cast hx
    have hyR : (t.1 : ℝ) < 0 := by exact_mod_cast hy
    have hsA : (0 : ℝ) < Real.sqrt (s.2 : ℝ) := Real.sqrt_pos.mpr haR
    have hsB : (0 : ℝ) < Real.sqrt (t.2 : ℝ) := Real.sqrt_pos.mpr hbR
    rw [decide_eq_true_iff, div_le_div_iff₀ hsA hsB]
    have hstep : (s.1 : ℝ) * Real.sqrt (t.2 : ℝ) ≤ (t.1 : ℝ) * Real.sqrt (s.2 : ℝ) ↔
        (t.1 : ℝ) ^ 2 * (s.2 : ℝ) ≤ (s.1 : ℝ) ^ 2 * (t.2 : ℝ) := by
      rw [show ((s.1 : ℝ) * Real.sqrt (t.2 : ℝ) ≤ (t.1 : ℝ) * Real.sqrt (s.2 : ℝ)) ↔
          (-((t.1 : ℝ) * Real.sqrt (s.2 : ℝ)) ≤ -((s.1 : ℝ) * Real.sqrt (t.2 : ℝ))) by
        constructor <;> intro h <;> linarith]
      rw [mul_self_le_mul_self_iff
        (by nlinarith [Real.sqrt_nonneg ((s.2 : ℝ)), hsA])
        (by nlinarith [Real.sqrt_nonneg ((t.2 : ℝ)), hsB])]
      constructor
      · intro hsq
        nlinarith [Real.sq_sqrt haR.le, Real.sq_sqrt hbR.le,
          sq_nonneg ((t.1 : ℝ) * Real.sqrt (s.2 : ℝ)), hsq]
      · intro hsq
        nlinarith [Real.sq_sqrt haR.le, Real.sq_sqrt hbR.le, hsq]
    rw [hstep]
    constructor
    · intro h; exact_mod_cast h
    · intro h; exact_mod_cast h

theorem scoreLE_total (s t : ℚ × ℚ) : scoreLE s t = true ∨ scoreLE t s = true := by
  rcases le_total ((s.1 : ℝ) / Real.sqrt (s.2 : ℝ)) ((t.1 : ℝ) / Real.sqrt (t.2 : ℝ)) with h | h
  · exact Or.inl ((scoreLE_iff s t).mpr h)
  · exact Or.inr ((scoreLE_iff t s).mpr h)

theorem scoreLE_trans (s t u : ℚ × ℚ) (h1 : scoreLE s t = true)
    (h2 : scoreLE t u = true) : scoreLE s u = true :=
  (scoreLE_iff s u).mpr (le_trans ((scoreLE_iff s t).mp h1) ((scoreLE_iff t u).mp h2))

/- ### Python `sorted(items, key=lambda x: x[1], reverse=True)` -/

/-- Order used to model Python's stable descending sort of the
`similarities.items()` list: entries are tagged with their iteration index
(`enum`); `a` precedes `b` when its score is at least `b`'s, and on score
ties when its index is not larger.  CPython's `sorted` with `reverse=True`
is stable, so its output is sorted exactly in this order. -/
def keyRel (a b : ℕ × (String × (ℚ × ℚ))) : Prop :=
  scoreLE b.2.2 a.2.2 = true ∧ (scoreLE a.2.2 b.2.2 = true → a.1 ≤ b.1)

instance : DecidableRel keyRel := fun a b => by
  unfold keyRel
  infer_instance

instance : IsTotal (ℕ × (String × (ℚ × ℚ))) keyRel := by
  constructor
  intro a b
  by_cases hba : scoreLE b.2.2 a.2.2 = true
  · by_cases hab : scoreLE a.2.2 b.2.2 = true
    · rcases Nat.le_total a.1 b.1 with h | h
      · exact Or.inl ⟨hba, fun _ => h⟩
      · exact Or.inr ⟨hab, fun _ => h⟩
    · exact Or.inl ⟨hba, fun hc => absurd hc hab⟩
  · rcases scoreLE_total a.2.2 b.2.2 with hab | hab
    · exact Or.inr ⟨hab, fun hc => absurd hc hba⟩
    · exact absurd hab hba

instance : IsTrans (ℕ × (String × (ℚ × ℚ))) keyRel := by
  constructor
  intro a b c hab hbc
  refine ⟨scoreLE_trans _ _ _ hbc.1 hab.1, fun hac => ?_⟩
  have hvba := (scoreLE_iff _ _).mp hab.1
  have hvcb := (scoreLE_iff _ _).mp hbc.1
  have hvac := (scoreLE_iff _ _).mp hac
  have hab2 : scoreLE a.2.2 b.2.2 = true := (scoreLE_iff _ _).mpr (by linarith)
  have hbc2 : scoreLE b.2.2 c.2.2 = true := (scoreLE_iff _ _).mpr (by linarith)
  exact le_trans (hab.2 hab2) (hbc.2 hbc2)

/-- Python list slicing `l[:k]` for an arbitrary (possibly negative)
integer `k`: a non-negative bound takes the first `k` elements; a negative
bound drops the last `|k|` elements. -/
def pySlice {α : Type} (l : List α) (k : ℤ) : List α :=
  if 0 ≤ k then l.take k.toNat else l.take (l.length - (-k).toNat)

/- ### `search` -/

/-- One element of the list returned by `search`:
`{'file': ..., 'score': ..., 'metadata': ...}`, with the score kept in its
exact pair representation (its real value is `scoreNum / √scoreDenSq`). -/
structure SearchResult where
  file : String
  scoreNum : ℚ
  scoreDenSq : ℚ
  metadata : FileMeta
deriving DecidableEq, Repr

/-- The `similarities` dict built by the scoring loop of `search`, keyed by
file path in iteration order of `self.embeddings`. -/
def similaritiesOf (q : List ℚ) (emb : List (String × List ℚ)) :
    List (String × (ℚ × ℚ)) :=
  emb.foldl (fun d e => dictInsert d e.1 (scoreOf q e.2)) []

/-- Model of `LambdaProjectIndexer.search(query, top_k)` given the already-embedded
query `q`: score every stored embedding, sort descending by score (stable),
slice to `top_k`, then build the result dicts; the `self.metadata[filepath]`
lookup is a `KeyError` — modelled by `none` — when the path is missing from
the metadata dict. -/
def search (st : IndexerState) (q : List ℚ) (top_k : ℤ) :
    Option (List SearchResult) :=
  let sims := similaritiesOf q st.embeddings
  let top_files := pySlice ((sims.enum.insertionSort keyRel).map Prod.snd) top_k
  top_files.mapM (fun e => (dictLookup st.metadata e.1).map
    (fun m => ⟨e.1, e.2.1, e.2.2, m⟩))

/- ### Supporting lemmas for the search theorems -/

theorem similarities_fold_append (q : List ℚ) :
    ∀ (emb : List (String × List ℚ)) (acc : List (String × (ℚ × ℚ))),
      (∀ x ∈ dictKeys emb, x ∉ dictKeys acc) → (dictKeys emb).Nodup →
      emb.foldl (fun d e => dictInsert d e.1 (scoreOf q e.2)) acc
        = acc ++ emb.map (fun e => (e.1, scoreOf q e.2)) := by
  intro emb
  induction emb with
  | nil => intro acc _ _; simp
  | cons e rest ih =>
    intro acc hdisj hnd
    have hcons : dictKeys (e :: rest) = e.1 :: dictKeys rest := rfl
    rw [hcons] at hnd
    obtain ⟨hnd1, hnd2⟩ := List.nodup_cons.mp hnd
    have hnotacc : e.1 ∉ dictKeys acc := hdisj e.1 (by rw [hcons]; simp)
    have hins : dictInsert acc e.1 (scoreOf q e.2) = acc ++ [(e.1, scoreOf q e.2)] := by
      unfold dictInsert
      rw [if_neg hnotacc]
    simp only [List.foldl_cons, hins]
    rw [ih (acc ++ [(e.1, scoreOf q e.2)])]
    · simp
    · intro x hx
      have hxe : x ≠ e.1 := by
        intro hcontra
        rw [hcontra] at hx
        exact hnd1 hx
      have hxacc : x ∉ dictKeys acc :=
        hdisj x (by rw [hcons]; exact List.mem_cons_of_mem _ hx)
      rw [show dictKeys (acc ++ [(e.1, scoreOf q e.2)])
            = dictKeys acc ++ [e.1] by simp [dictKeys]]
      intro hmem
      rcases List.mem_append.mp hmem with hmem | hmem
      · exact hxacc hmem
      · simp at hmem
        exact hxe hmem
    · exact hnd2

/-- Under the dict invariant (no duplicate keys), the similarities dict is
the entry-wise scoring of the embeddings dict, in iteration order. -/
theorem similaritiesOf_eq_map (q : List ℚ) (emb : List (String × List ℚ))
    (h : (dictKeys emb).Nodup) :
    similaritiesOf q emb = emb.map (fun e => (e.1, scoreOf q e.2)) := by
  unfold similaritiesOf
  rw [similarities_fold_append q emb [] (by simp [dictKeys]) h]
  simp

theorem mapM_option_forall₂ {α β : Type} (f : α → Option β) :
    ∀ (l : List α) (l' : List β), l.mapM f = some l' →
      List.Forall₂ (fun a b => f a = some b) l l' := by
  intro l
  induction l with
  | nil =>
    intro l' h
    rw [List.mapM_nil] at h
    cases Option.some_inj.mp h
    exact List.Forall₂.nil
  | cons a as ih =>
    intro l' h
    rw [List.mapM_cons] at h
    cases hfa : f a with
    | none =>
      rw [hfa] at h
      simp at h
    | some b =>
      rw [hfa] at h
      cases hml : as.mapM f with
      | none =>
        rw [hml] at h
        simp at h
      | some bs =>
        rw [hml] at h
        have hl : l' = b :: bs := by simpa using h.symm
        subst hl
        exact List.Forall₂.cons hfa (ih bs hml)

theorem mapM_option_some_of_forall {α β : Type} (f : α → Option β) (l : List α)
    (h : ∀ a ∈ l, ∃ b, f a = some b) : ∃ l', l.mapM f = some l' := by
  induction l with
  | nil => exact ⟨[], rfl⟩
  | cons a as ih =>
    obtain ⟨b, hb⟩ := h a (by simp)
    obtain ⟨bs, hbs⟩ := ih (fun x hx => h x (by simp [hx]))
    refine ⟨b :: bs, ?_⟩
    rw [List.mapM_cons, hb, hbs]
    rfl

theorem mapM_option_none_of_mem {α β : Type} (f : α → Option β) (l : List α)
    (a : α) (ha : a ∈ l) (hfa : f a = none) : l.mapM f = none := by
  induction l with
  | nil => simp at ha
  | cons x xs ih =>
    rw [List.mapM_cons]
    rcases List.mem_cons.mp ha with h | h
    · subst h
      rw [hfa]
      rfl
    · cases hfx : f x with
      | none => rfl
      | some b =>
        rw [ih h]
        rfl

theorem dictLookup_getElem {β : Type} (d : List (String × β))
    (hnd : (dictKeys d).Nodup) (i : ℕ) (hi : i < d.length) :
    dictLookup d d[i].1 = some d[i].2 := by
  induction d generalizing i with
  | nil => simp at hi
  | cons e rest ih =>
    have hcons : dictKeys (e :: rest) = e.1 :: dictKeys rest := rfl
    rw [hcons] at hnd
    obtain ⟨hnd1, hnd2⟩ := List.nodup_cons.mp hnd
    cases i with
    | zero => simp [dictLookup]
    | succ j =>
      have hj : j < rest.length := by simpa using hi
      have hne : e.1 ≠ rest[j].1 := by
        intro hcontra
        apply hnd1
        rw [hcontra]
        exact List.mem_map_of_mem Prod.fst (List.getElem_mem hj)
      have hgl : (e :: rest)[j + 1] = rest[j] := by simp
      rw [hgl, dictLookup, if_neg hne]
      exact ih hnd2 j hj

theorem forall₂_exists_left {α β : Type} {S : α → β → Prop} :
    ∀ {l : List α} {l' : List β}, List.Forall₂ S l l' →
      ∀ b ∈ l', ∃ a ∈ l, S a b := by
  intro l l' h
  induction h with
  | nil => intro b hb; simp at hb
  | cons hab htail ih =>
    intro b hb
    rcases List.mem_cons.mp hb with h | h
    · subst h
      exact ⟨_, by simp, hab⟩
    · obtain ⟨a, ha, hs⟩ := ih b h
      exact ⟨a, by simp [ha], hs⟩

theorem forall₂_pairwise_transfer {α β : Type} {S : α → β → Prop}
    {R : α → α → Prop} {Q : β → β → Prop}
    (hcomp : ∀ a a' b b', S a b → S a' b' → R a a' → Q b b') :
    ∀ {l : List α} {l' : List β}, List.Forall₂ S l l' →
      List.Pairwise R l → List.Pairwise Q l' := by
  intro l l' hfor
  induction hfor with
  | nil => intro _; exact List.Pairwise.nil
  | cons hab htail ih =>
    intro hpw
    obtain ⟨hhead, htailpw⟩ := List.pairwise_cons.mp hpw
    refine List.Pairwise.cons ?_ (ih htailpw)
    intro y hy
    obtain ⟨x, hx, hs⟩ := forall₂_exists_left htail y hy
    exact hcomp _ _ _ _ hab hs (hhead x hx)

/-- Every tagged entry of the enumerated similarities list records its own
iteration index (which, the keys being distinct, is the index of its path
among the stored paths) and the exact cosine score of a stored vector. -/
theorem enum_sims_property (q : List ℚ) (emb : List (String × List ℚ))
    (hnd : (dictKeys emb).Nodup) :
    ∀ pr ∈ (similaritiesOf q emb).enum,
      List.indexOf pr.2.1 (dictKeys emb) = pr.1 ∧
      ∃ v, dictLookup emb pr.2.1 = some v ∧ pr.2.2 = scoreOf q v := by
  intro pr hpr
  rw [similaritiesOf_eq_map q emb hnd] at hpr
  rcases pr with ⟨i, x⟩
  obtain ⟨hi, hx⟩ := List.mem_enum hpr
  rw [List.getElem_map] at hx
  rw [hx]
  have hi' : i < emb.length := by simpa using hi
  constructor
  · show List.indexOf emb[i].1 (dictKeys emb) = i
    have hlt : i < (dictKeys emb).length := by simpa [dictKeys] using hi'
    have hkey : (dictKeys emb).get ⟨i, hlt⟩ = emb[i].1 := by simp [dictKeys]
    rw [← hkey]
    simpa using List.get_indexOf hnd ⟨i, hlt⟩
  · exact ⟨emb[i].2, dictLookup_getElem emb hnd i hi', rfl⟩

theorem dictLookup_some_mem {β : Type} (d : List (String × β)) (k : String)
    (v : β) (h : dictLookup d k = some v) : k ∈ dictKeys d := by
  induction d with
  | nil => simp [dictLookup] at h
  | cons e rest ih =>
    rw [dictLookup] at h
    by_cases he : e.1 = k
    · rw [show dictKeys (e :: rest) = e.1 :: dictKeys rest from rfl, he]
      simp
    · rw [if_neg he] at h
      rw [show dictKeys (e :: rest) = e.1 :: dictKeys rest from rfl]
      exact List.mem_cons_of_mem _ (ih h)

/-- C1: on every index store satisfying the data-model invariant (stored
paths distinct, metadata covering every stored path) and for every query
embedding, `search` with `top_k = k ≥ 0` returns a list of length
`min k n`; its entries are in non-increasing order of the real cosine
score `scoreNum / √scoreDenSq`, entries with equal scores appear in the
iteration (insertion) order of the stored paths, and each entry carries
the exact cosine score of its stored vector. -/
theorem C1_search_top_k (st : IndexerState) (q : List ℚ) (k : ℕ)
    (hnd : (dictKeys st.embeddings).Nodup)
    (hmeta : ∀ p ∈ dictKeys st.embeddings, ∃ m, dictLookup st.metadata p = some m) :
    ∃ rs, search st q (k : ℤ) = some rs ∧
      rs.length = min k st.embeddings.length ∧
      rs.Pairwise (fun r r' =>
        ((r'.scoreNum : ℝ) / Real.sqrt (r'.scoreDenSq : ℝ)
            ≤ (r.scoreNum : ℝ) / Real.sqrt (r.scoreDenSq : ℝ)) ∧
        ((r.scoreNum : ℝ) / Real.sqrt (r.scoreDenSq : ℝ)
            = (r'.scoreNum : ℝ) / Real.sqrt (r'.scoreDenSq : ℝ) →
          List.indexOf r.file (dictKeys st.embeddings)
            < List.indexOf r'.file (dictKeys st.embeddings))) ∧
      ∀ r ∈ rs, ∃ v, dictLookup st.embeddings r.file = some v ∧
        r.scoreNum = dot q v ∧ r.scoreDenSq = dot q q * dot v v := by
  have hP := enum_sims_property q st.embeddings hnd
  have hslice : pySlice (((similaritiesOf q st.embeddings).enum.insertionSort
        keyRel).map Prod.snd) (k : ℤ)
      = (((similaritiesOf q st.embeddings).enum.insertionSort keyRel).take k).map
          Prod.snd := by
    unfold pySlice
    rw [if_pos (by exact_mod_cast Nat.zero_le k), Int.toNat_natCast, List.map_take]
  have hsearch : search st q (k : ℤ)
      = ((((similaritiesOf q st.embeddings).enum.insertionSort keyRel).take k).map
          Prod.snd).mapM (fun e => (dictLookup st.metadata e.1).map
            (fun m => ⟨e.1, e.2.1, e.2.2, m⟩)) := by
    rw [show search st q (k : ℤ)
        = (pySlice (((similaritiesOf q st.embeddings).enum.insertionSort
            keyRel).map Prod.snd) (k : ℤ)).mapM
              (fun e => (dictLookup st.metadata e.1).map
                (fun m => ⟨e.1, e.2.1, e.2.2, m⟩)) from rfl, hslice]
  have hmemsl : ∀ pr ∈ ((similaritiesOf q st.embeddings).enum.insertionSort
      keyRel).take k, pr ∈ (similaritiesOf q st.embeddings).enum := by
    intro pr hpr
    exact (List.perm_insertionSort keyRel _).mem_iff.mp
      ((List.take_sublist _ _).subset hpr)
  have hsorted : List.Pairwise keyRel
      ((similaritiesOf q st.embeddings).enum.insertionSort keyRel) :=
    List.sorted_insertionSort keyRel _
  have hnodupenum : (similaritiesOf q st.embeddings).enum.Nodup := by
    have hmapnodup : ((similaritiesOf q st.embeddings).enum.map Prod.fst).Nodup := by
      rw [List.enum_map_fst]
      exact List.nodup_range _
    exact List.Nodup.of_map _ hmapnodup
  have hnodup' : ((similaritiesOf q st.embeddings).enum.insertionSort keyRel).Nodup :=
    ((List.perm_insertionSort keyRel _).nodup_iff).mpr hnodupenum
  have hcomb := (List.Pairwise.sublist (List.take_sublist k _) (hsorted.and hnodup'))
  have hsem : (((similaritiesOf q st.embeddings).enum.insertionSort keyRel).take
      k).Pairwise (fun pr pr' =>
        ((pr'.2.2.1 : ℝ) / Real.sqrt (pr'.2.2.2 : ℝ)
            ≤ (pr.2.2.1 : ℝ) / Real.sqrt (pr.2.2.2 : ℝ)) ∧
        ((pr.2.2.1 : ℝ) / Real.sqrt (pr.2.2.2 : ℝ)
            = (pr'.2.2.1 : ℝ) / Real.sqrt (pr'.2.2.2 : ℝ) →
          List.indexOf pr.2.1 (dictKeys st.embeddings)
            < List.indexOf pr'.2.1 (dictKeys st.embeddings))) := by
    refine hcomb.imp_of_mem ?_
    intro a b ha hb hab
    obtain ⟨hkr, hne⟩ := hab
    have hPa := hP a (hmemsl a ha)
    have hPb := hP b (hmemsl b hb)
    refine ⟨(scoreLE_iff _ _).mp hkr.1, ?_⟩
    intro heq
    have hab2 : scoreLE a.2.2 b.2.2 = true := (scoreLE_iff _ _).mpr (le_of_eq heq)
    have hle : a.1 ≤ b.1 := hkr.2 hab2
    have hneidx : a.1 ≠ b.1 := by
      intro hcontra
      apply hne
      have hma := hmemsl a ha
      have hmb := hmemsl b hb
      rcases a with ⟨i, xa⟩
      rcases b with ⟨j, xb⟩
      obtain ⟨hia, hxa⟩ := List.mem_enum hma
      obtain ⟨hib, hxb⟩ := List.mem_enum hmb
      simp only at hcontra
      subst hcontra
      rw [Prod.mk.injEq]
      exact ⟨rfl, hxa.trans hxb.symm⟩
    rw [hPa.1, hPb.1]
    exact lt_of_le_of_ne hle hneidx
  have hex : ∀ e ∈ (((similaritiesOf q st.embeddings).enum.insertionSort
      keyRel).take k).map Prod.snd,
      ∃ r, (dictLookup st.metadata e.1).map
        (fun m => (⟨e.1, e.2.1, e.2.2, m⟩ : SearchResult)) = some r := by
    intro e he
    obtain ⟨pr, hpr, hpre⟩ := List.mem_map.mp he
    obtain ⟨hidx, v, hv, hsc⟩ := hP pr (hmemsl pr hpr)
    have hkeymem : e.1 ∈ dictKeys st.embeddings := by
      rw [← hpre]
      exact dictLookup_some_mem _ _ _ hv
    obtain ⟨m, hm⟩ := hmeta e.1 hkeymem
    exact ⟨⟨e.1, e.2.1, e.2.2, m⟩, by rw [hm]; rfl⟩
  obtain ⟨rs, hrs⟩ := mapM_option_some_of_forall _ _ hex
  have hfor := mapM_option_forall₂ _ _ rs hrs
  have hfields : ∀ (e : String × (ℚ × ℚ)) (r : SearchResult),
      (dictLookup st.metadata e.1).map
        (fun m => (⟨e.1, e.2.1, e.2.2, m⟩ : SearchResult)) = some r →
      r.file = e.1 ∧ r.scoreNum = e.2.1 ∧ r.scoreDenSq = e.2.2 := by
    intro e r h
    cases hm : dictLookup st.metadata e.1 with
    | none => rw [hm] at h; simp at h
    | some m =>
      rw [hm] at h
      have := Option.some_inj.mp h
      rw [← this]
      exact ⟨rfl, rfl, rfl⟩
  refine ⟨rs, by rw [hsearch]; exact hrs, ?_, ?_, ?_⟩
  · have h1 := hfor.length_eq
    rw [List.length_map, List.length_take,
      (List.perm_insertionSort keyRel _).length_eq, List.enum_length,
      similaritiesOf_eq_map q _ hnd, List.length_map] at h1
    exact h1.symm
  · have hsemM : (((( similaritiesOf q st.embeddings).enum.insertionSort
        keyRel).take k).map Prod.snd).Pairwise
        (fun (e e' : String × (ℚ × ℚ)) =>
          ((e'.2.1 : ℝ) / Real.sqrt (e'.2.2 : ℝ)
              ≤ (e.2.1 : ℝ) / Real.sqrt (e.2.2 : ℝ)) ∧
          ((e.2.1 : ℝ) / Real.sqrt (e.2.2 : ℝ)
              = (e'.2.1 : ℝ) / Real.sqrt (e'.2.2 : ℝ) →
            List.indexOf e.1 (dictKeys st.embeddings)
              < List.indexOf e'.1 (dictKeys st.embeddings))) := by
      rw [List.pairwise_map]
      exact hsem
    refine forall₂_pairwise_transfer ?_ hfor hsemM
    intro e e' r r' hs hs' hre
    obtain ⟨hf, hn, hd⟩ := hfields e r hs
    obtain ⟨hf', hn', hd'⟩ := hfields e' r' hs'
    rw [hf, hn, hd, hf', hn', hd']
    exact hre
  · intro r hr
    obtain ⟨e, he, hs⟩ := forall₂_exists_left hfor r hr
    obtain ⟨pr, hpr, hpre⟩ := List.mem_map.mp he
    obtain ⟨hidx, v, hv, hsc⟩ := hP pr (hmemsl pr hpr)
    obtain ⟨hf, hn, hd⟩ := hfields e r hs
    refine ⟨v, ?_, ?_, ?_⟩
    · rw [hf, ← hpre]
      exact hv
    · rw [hn, ← hpre, hsc]
      simp [scoreOf]
    · rw [hd, ← hpre, hsc]
      simp [scoreOf]

/- ### `embed_file`: mean pooling of chunk embeddings (C4) -/

/-- Element-wise sum of a stack of equal-length vectors, as summed by
`np.mean(chunk_embeddings, axis=0)` before dividing. -/
def vecSum : List (List ℚ) → List ℚ
  | [] => []
  | [v] => v
  | v :: rest => List.zipWith (· + ·) v (vecSum rest)

/-- Mean pooling `np.mean(vs, axis=0)`: element-wise sum divided by the number of
vectors. -/
def vecMean (vs : List (List ℚ)) : List ℚ :=
  (vecSum vs).map (fun x => x / (vs.length : ℚ))

/-- Model of `LambdaProjectIndexer.embed_file` with the model's chunk embedding as a
black-box function `embed`: chunk the content with `max_length = 512`,
embed every chunk, and average the chunk embeddings. -/
def embed_file (embed : List Char → List ℚ) (content : List Char) : List ℚ :=
  vecMean ((chunk_text content 512).map embed)

theorem chunk_text_ne_nil (text : List Char) (maxLength : ℕ) :
    chunk_text text maxLength ≠ [] := by
  unfold chunk_text
  rw [chunkFinish_eq]
  rcases (pySplit text).foldl (chunkStep maxLength) ([], []) with ⟨cs, cur⟩
  by_cases h2 : cur = []
  · by_cases h1 : cs = []
    · simp [h1, h2]
    · simp [h1, h2]
  · simp [h2]

theorem vecSum_length (vs : List (List ℚ)) (D : ℕ) (hne : vs ≠ [])
    (hD : ∀ v ∈ vs, v.length = D) : (vecSum vs).length = D := by
  induction vs with
  | nil => exact absurd rfl hne
  | cons v rest ih =>
    cases rest with
    | nil => simpa using hD v (by simp)
    | cons w t =>
      rw [show vecSum (v :: w :: t) = List.zipWith (· + ·) v (vecSum (w :: t)) from rfl]
      rw [List.length_zipWith, hD v (by simp),
        ih (by simp) (fun x hx => hD x (by simp [hx]))]
      simp

theorem vecSum_getD (vs : List (List ℚ)) (D : ℕ) (j : ℕ) (hne : vs ≠ [])
    (hD : ∀ v ∈ vs, v.length = D) (hj : j < D) :
    (vecSum vs).getD j 0 = (vs.map (fun v => v.getD j 0)).sum := by
  induction vs with
  | nil => exact absurd rfl hne
  | cons v rest ih =>
    cases rest with
    | nil =>
      rw [show vecSum [v] = v from rfl]
      simp
    | cons w t =>
      have hlen : (vecSum (w :: t)).length = D :=
        vecSum_length (w :: t) D (by simp) (fun x hx => hD x (by simp [hx]))
      have hvlen : v.length = D := hD v (by simp)
      have hjz : j < (List.zipWith (· + ·) v (vecSum (w :: t))).length := by
        rw [List.length_zipWith, hvlen, hlen]
        simpa using hj
      rw [show vecSum (v :: w :: t) = List.zipWith (· + ·) v (vecSum (w :: t)) from rfl]
      rw [List.getD_eq_getElem _ _ hjz, List.getElem_zipWith]
      rw [← List.getD_eq_getElem v (0 : ℚ) (by omega : j < v.length),
        ← List.getD_eq_getElem (vecSum (w :: t)) (0 : ℚ) (by omega)]
      rw [ih (by simp) (fun x hx => hD x (by simp [hx]))]
      simp

/-- C4: for every file content and every chunk embedder producing vectors
of a fixed dimension `D`, the stored file-level vector computed by
`embed_file` has dimension `D` and its `j`-th component is the plain
arithmetic mean of the `j`-th components of the chunk embeddings — sum
divided by the number of chunks, with no weighting of any kind. -/
theorem C4_file_vector_is_mean (embed : List Char → List ℚ)
    (content : List Char) (D : ℕ)
    (hD : ∀ c ∈ chunk_text content 512, (embed c).length = D)
    (j : ℕ) (hj : j < D) :
    (embed_file embed content).length = D ∧
    (embed_file embed content).getD j 0
      = ((chunk_text content 512).map (fun c => (embed c).getD j 0)).sum
          / ((chunk_text content 512).length : ℚ) := by
  have hne : (chunk_text content 512).map embed ≠ [] := by
    intro hcontra
    exact chunk_text_ne_nil content 512 (List.map_eq_nil_iff.mp hcontra)
  have hDall : ∀ v ∈ (chunk_text content 512).map embed, v.length = D := by
    intro v hv
    obtain ⟨c, hc, hcv⟩ := List.mem_map.mp hv
    rw [← hcv]
    exact hD c hc
  have hsumlen : (vecSum ((chunk_text content 512).map embed)).length = D :=
    vecSum_length _ D hne hDall
  constructor
  · unfold embed_file vecMean
    rw [List.length_map]
    exact hsumlen
  · unfold embed_file vecMean
    have hjlen : j < (vecSum ((chunk_text content 512).map embed)).length := by
      omega
    have hmaplen : j < ((vecSum ((chunk_text content 512).map embed)).map
        (fun x => x / (((chunk_text content 512).map embed).length : ℚ))).length := by
      rw [List.length_map]
      omega
    rw [List.getD_eq_getElem _ _ hmaplen, List.getElem_map,
      ← List.getD_eq_getElem _ (0 : ℚ) hjlen,
      vecSum_getD _ D j hne hDall hj, List.map_map, List.length_map]
    rfl

/-- Witness for C4 at a two-word content, a constant embedder of dimension 2
and `j = 1`. -/
theorem C4_witness :
    (∀ c ∈ chunk_text ('a' :: ' ' :: 'b' :: []) 512,
      ((fun _ => [(3 : ℚ), 5]) c).length = 2) ∧ 1 < 2 ∧
    ((embed_file (fun _ => [(3 : ℚ), 5]) ('a' :: ' ' :: 'b' :: [])).length = 2 ∧
    (embed_file (fun _ => [(3 : ℚ), 5]) ('a' :: ' ' :: 'b' :: [])).getD 1 0
      = ((chunk_text ('a' :: ' ' :: 'b' :: []) 512).map
          (fun c => ((fun _ => [(3 : ℚ), 5]) c).getD 1 0)).sum
          / ((chunk_text ('a' :: ' ' :: 'b' :: []) 512).length : ℚ)) :=
  ⟨by intro c _; rfl, by decide,
    C4_file_vector_is_mean (fun _ => [(3 : ℚ), 5]) _ 2 (by intro c _; rfl) 1
      (by decide)⟩

/- ### C8 / C10: non-positive `top_k` and missing metadata -/

theorem search_take_exists (st : IndexerState) (q : List ℚ) (t : ℕ)
    (hnd : (dictKeys st.embeddings).Nodup)
    (hmeta : ∀ p ∈ dictKeys st.embeddings, ∃ m, dictLookup st.metadata p = some m) :
    ∃ rs, ((((similaritiesOf q st.embeddings).enum.insertionSort keyRel).take
        t).map Prod.snd).mapM (fun e => (dictLookup st.metadata e.1).map
          (fun m => (⟨e.1, e.2.1, e.2.2, m⟩ : SearchResult))) = some rs ∧
      rs.length = min t st.embeddings.length := by
  have hP := enum_sims_property q st.embeddings hnd
  have hmemsl : ∀ pr ∈ ((similaritiesOf q st.embeddings).enum.insertionSort
      keyRel).take t, pr ∈ (similaritiesOf q st.embeddings).enum := by
    intro pr hpr
    exact (List.perm_insertionSort keyRel _).mem_iff.mp
      ((List.take_sublist _ _).subset hpr)
  have hex : ∀ e ∈ (((similaritiesOf q st.embeddings).enum.insertionSort
      keyRel).take t).map Prod.snd,
      ∃ r, (dictLookup st.metadata e.1).map
        (fun m => (⟨e.1, e.2.1, e.2.2, m⟩ : SearchResult)) = some r := by
    intro e he
    obtain ⟨pr, hpr, hpre⟩ := List.mem_map.mp he
    obtain ⟨hidx, v, hv, hsc⟩ := hP pr (hmemsl pr hpr)
    have hkeymem : e.1 ∈ dictKeys st.embeddings := by
      rw [← hpre]
      exact dictLookup_some_mem _ _ _ hv
    obtain ⟨m, hm⟩ := hmeta e.1 hkeymem
    exact ⟨⟨e.1, e.2.1, e.2.2, m⟩, by rw [hm]; rfl⟩
  obtain ⟨rs, hrs⟩ := mapM_option_some_of_forall _ _ hex
  have h1 := (mapM_option_forall₂ _ _ rs hrs).length_eq
  rw [List.length_map, List.length_take,
    (List.perm_insertionSort keyRel _).length_eq, List.enum_length,
    similaritiesOf_eq_map q _ hnd, List.length_map] at h1
  exact ⟨rs, hrs, h1.symm⟩

/-- C8 counterexample: a two-entry store with matching metadata, queried
with `top_k = -1`, returns one result (Python's `[:-1]` keeps all but the
last ranked entry), not the empty sequence the claim demands for every
`top_k ≤ 0`. -/
theorem C8_counterexample :
    ∃ rs, search ⟨[("a", [1]), ("b", [2])],
        [("a", ⟨"/p/a", ".py", 1⟩), ("b", ⟨"/p/b", ".py", 2⟩)]⟩ [1] (-1)
      = some rs ∧ rs.length = 1 ∧ rs ≠ [] := by
  have hnd : (dictKeys ([("a", [1]), ("b", [2])] : List (String × List ℚ))).Nodup := by
    decide
  have hmeta : ∀ p ∈ dictKeys ([("a", [1]), ("b", [2])] : List (String × List ℚ)),
      ∃ m, dictLookup [("a", FileMeta.mk "/p/a" ".py" 1),
        ("b", FileMeta.mk "/p/b" ".py" 2)] p = some m := by
    intro p hp
    have hp' : p = "a" ∨ p = "b" := by simpa [dictKeys] using hp
    rcases hp' with rfl | rfl
    · exact ⟨⟨"/p/a", ".py", 1⟩, rfl⟩
    · exact ⟨⟨"/p/b", ".py", 2⟩, rfl⟩
  have hlen : (((similaritiesOf [1]
      ([("a", [1]), ("b", [2])] : List (String × List ℚ))).enum.insertionSort
        keyRel).map Prod.snd).length = 2 := by
    rw [List.length_map, (List.perm_insertionSort keyRel _).length_eq,
      List.enum_length, similaritiesOf_eq_map _ _ hnd, List.length_map]
    rfl
  have hslice : pySlice (((similaritiesOf [1]
      ([("a", [1]), ("b", [2])] : List (String × List ℚ))).enum.insertionSort
        keyRel).map Prod.snd) (-1)
      = (((similaritiesOf [1]
          ([("a", [1]), ("b", [2])] : List (String × List ℚ))).enum.insertionSort
            keyRel).take 1).map Prod.snd := by
    unfold pySlice
    rw [if_neg (by decide), hlen, List.map_take]
    norm_num
  have hsearch : search ⟨[("a", [1]), ("b", [2])],
      [("a", ⟨"/p/a", ".py", 1⟩), ("b", ⟨"/p/b", ".py", 2⟩)]⟩ [1] (-1)
      = ((((similaritiesOf [1]
          ([("a", [1]), ("b", [2])] : List (String × List ℚ))).enum.insertionSort
            keyRel).take 1).map Prod.snd).mapM
              (fun e => (dictLookup [("a", FileMeta.mk "/p/a" ".py" 1),
                ("b", FileMeta.mk "/p/b" ".py" 2)] e.1).map
                  (fun m => ⟨e.1, e.2.1, e.2.2, m⟩)) := by
    rw [show search ⟨[("a", [1]), ("b", [2])],
        [("a", ⟨"/p/a", ".py", 1⟩), ("b", ⟨"/p/b", ".py", 2⟩)]⟩ [1] (-1)
        = (pySlice (((similaritiesOf [1]
            ([("a", [1]), ("b", [2])] : List (String × List ℚ))).enum.insertionSort
              keyRel).map Prod.snd) (-1)).mapM
                (fun e => (dictLookup [("a", FileMeta.mk "/p/a" ".py" 1),
                  ("b", FileMeta.mk "/p/b" ".py" 2)] e.1).map
                    (fun m => ⟨e.1, e.2.1, e.2.2, m⟩)) from rfl, hslice]
  obtain ⟨rs, hrs, hrslen⟩ := search_take_exists
    ⟨[("a", [1]), ("b", [2])],
      [("a", ⟨"/p/a", ".py", 1⟩), ("b", ⟨"/p/b", ".py", 2⟩)]⟩ [1] 1 hnd hmeta
  refine ⟨rs, by rw [hsearch]; exact hrs, ?_, ?_⟩
  · simpa using hrslen
  · intro hcontra
    rw [hcontra] at hrslen
    simp at hrslen

/-- C8 (amended): `search` with `top_k = 0` returns the empty sequence, but
for negative `top_k` Python's slice `[:top_k]` keeps all but the last
`|top_k|` ranked entries: on a well-formed store the result has length
`n - |top_k|` (truncated at zero), non-empty whenever the store holds more
than `|top_k|` embeddings. -/
theorem C8_nonpositive_top_k (st : IndexerState) (q : List ℚ) (k : ℤ)
    (hnd : (dictKeys st.embeddings).Nodup)
    (hmeta : ∀ p ∈ dictKeys st.embeddings, ∃ m, dictLookup st.metadata p = some m)
    (hk : k < 0) :
    search st q 0 = some [] ∧
    ∃ rs, search st q k = some rs ∧
      rs.length = st.embeddings.length - (-k).toNat := by
  constructor
  · rfl
  · have hlen : (((similaritiesOf q st.embeddings).enum.insertionSort
        keyRel).map Prod.snd).length = st.embeddings.length := by
      rw [List.length_map, (List.perm_insertionSort keyRel _).length_eq,
        List.enum_length, similaritiesOf_eq_map q _ hnd, List.length_map]
    have hslice : pySlice (((similaritiesOf q st.embeddings).enum.insertionSort
        keyRel).map Prod.snd) k
        = (((similaritiesOf q st.embeddings).enum.insertionSort keyRel).take
            (st.embeddings.length - (-k).toNat)).map Prod.snd := by
      unfold pySlice
      rw [if_neg (not_le.mpr hk), hlen, List.map_take]
    have hsearch : search st q k
        = ((((similaritiesOf q st.embeddings).enum.insertionSort keyRel).take
            (st.embeddings.length - (-k).toNat)).map Prod.snd).mapM
              (fun e => (dictLookup st.metadata e.1).map
                (fun m => ⟨e.1, e.2.1, e.2.2, m⟩)) := by
      rw [show search st q k
          = (pySlice (((similaritiesOf q st.embeddings).enum.insertionSort
              keyRel).map Prod.snd) k).mapM
                (fun e => (dictLookup st.metadata e.1).map
                  (fun m => ⟨e.1, e.2.1, e.2.2, m⟩)) from rfl, hslice]
    obtain ⟨rs, hrs, hrslen⟩ := search_take_exists st q
      (st.embeddings.length - (-k).toNat) hnd hmeta
    refine ⟨rs, by rw [hsearch]; exact hrs, ?_⟩
    rw [hrslen]
    exact min_eq_left (Nat.sub_le _ _)

/-- Witness for C8 on a two-entry store with `top_k = -1`. -/
theorem C8_witness :
    ((dictKeys (IndexerState.mk [("a", [1]), ("b", [2])]
        [("a", ⟨"/p/a", ".py", 1⟩), ("b", ⟨"/p/b", ".py", 2⟩)]).embeddings).Nodup ∧
      (-1 : ℤ) < 0) ∧
    (search ⟨[("a", [1]), ("b", [2])],
        [("a", ⟨"/p/a", ".py", 1⟩), ("b", ⟨"/p/b", ".py", 2⟩)]⟩ [1] 0 = some [] ∧
     ∃ rs, search ⟨[("a", [1]), ("b", [2])],
        [("a", ⟨"/p/a", ".py", 1⟩), ("b", ⟨"/p/b", ".py", 2⟩)]⟩ [1] (-1) = some rs ∧
      rs.length = (IndexerState.mk [("a", [1]), ("b", [2])]
        [("a", ⟨"/p/a", ".py", 1⟩), ("b", ⟨"/p/b", ".py", 2⟩)]).embeddings.length
          - ((-(-1) : ℤ)).toNat) :=
  ⟨⟨by decide, by decide⟩,
    C8_nonpositive_top_k
      ⟨[("a", [1]), ("b", [2])],
        [("a", ⟨"/p/a", ".py", 1⟩), ("b", ⟨"/p/b", ".py", 2⟩)]⟩ [1] (-1)
      (by decide)
      (by
        intro p hp
        have hp' : p = "a" ∨ p = "b" := by
          simpa [dictKeys] using hp
        rcases hp' with rfl | rfl
        · exact ⟨⟨"/p/a", ".py", 1⟩, rfl⟩
        · exact ⟨⟨"/p/b", ".py", 2⟩, rfl⟩)
      (by decide)⟩

/-- C10: `search` requires every path it ranks to be present in the
metadata dict — a ranked path missing from metadata makes the
`self.metadata[filepath]` lookup a `KeyError` and `search` produces no
result list — while `load_index` accepts any pair of present artifacts
verbatim, performing no check that would keep such a mismatched pair out. -/
theorem C10_missing_metadata_keyerror (st : IndexerState) (q : List ℚ)
    (k : ℤ) (p : String)
    (hemb : p ∈ dictKeys st.embeddings)
    (htop : p ∈ (pySlice (((similaritiesOf q st.embeddings).enum.insertionSort
        keyRel).map Prod.snd) k).map Prod.fst)
    (hmiss : dictLookup st.metadata p = none) :
    search st q k = none ∧
    ∀ (d : List (String × List ℚ)) (m : List (String × FileMeta))
      (s : IndexerState), load_index (some d) (some m) s = .ok ⟨d, m⟩ := by
  constructor
  · obtain ⟨e, he, hfst⟩ := List.mem_map.mp htop
    have hnone : (dictLookup st.metadata e.1).map
        (fun m => (⟨e.1, e.2.1, e.2.2, m⟩ : SearchResult)) = none := by
      rw [hfst, hmiss]
      rfl
    rw [show search st q k
        = (pySlice (((similaritiesOf q st.embeddings).enum.insertionSort
            keyRel).map Prod.snd) k).mapM
              (fun e => (dictLookup st.metadata e.1).map
                (fun m => ⟨e.1, e.2.1, e.2.2, m⟩)) from rfl]
    exact mapM_option_none_of_mem _ _ e he hnone
  · intro d m s
    rfl

/-- Witness for C10: a store whose single embedded path `"a"` has no
metadata entry; `search` with `top_k = 1` hits the `KeyError`. -/
theorem C10_witness :
    ("a" ∈ dictKeys (IndexerState.mk [("a", [1])] []).embeddings ∧
      "a" ∈ (pySlice (((similaritiesOf [1]
          (IndexerState.mk [("a", [1])] []).embeddings).enum.insertionSort
            keyRel).map Prod.snd) 1).map Prod.fst ∧
      dictLookup (IndexerState.mk [("a", [1])] []).metadata "a" = none) ∧
    (search ⟨[("a", [1])], []⟩ [1] 1 = none ∧
    ∀ (d : List (String × List ℚ)) (m : List (String × FileMeta))
      (s : IndexerState), load_index (some d) (some m) s = .ok ⟨d, m⟩) :=
  ⟨⟨by decide, by decide, rfl⟩,
    C10_missing_metadata_keyerror ⟨[("a", [1])], []⟩ [1] 1 "a"
      (by decide) (by decide) rfl⟩

/-- Witness for C1 on a concrete two-entry store with full metadata and
`top_k = 1`. -/
theorem C1_witness :
    ((dictKeys (IndexerState.mk [("a", [1]), ("b", [2])]
        [("a", ⟨"/p/a", ".py", 1⟩), ("b", ⟨"/p/b", ".py", 2⟩)]).embeddings).Nodup ∧
      (∀ p ∈ dictKeys (IndexerState.mk [("a", [1]), ("b", [2])]
          [("a", ⟨"/p/a", ".py", 1⟩), ("b", ⟨"/p/b", ".py", 2⟩)]).embeddings,
        ∃ m, dictLookup (IndexerState.mk [("a", [1]), ("b", [2])]
          [("a", ⟨"/p/a", ".py", 1⟩), ("b", ⟨"/p/b", ".py", 2⟩)]).metadata p
            = some m)) ∧
    (∃ rs, search (IndexerState.mk [("a", [1]), ("b", [2])]
        [("a", ⟨"/p/a", ".py", 1⟩), ("b", ⟨"/p/b", ".py", 2⟩)]) [1] ((1 : ℕ) : ℤ)
          = some rs ∧
      rs.length = min 1 (IndexerState.mk [("a", [1]), ("b", [2])]
        [("a", ⟨"/p/a", ".py", 1⟩),
          ("b", ⟨"/p/b", ".py", 2⟩)]).embeddings.length ∧
      rs.Pairwise (fun r r' =>
        ((r'.scoreNum : ℝ) / Real.sqrt (r'.scoreDenSq : ℝ)
            ≤ (r.scoreNum : ℝ) / Real.sqrt (r.scoreDenSq : ℝ)) ∧
        ((r.scoreNum : ℝ) / Real.sqrt (r.scoreDenSq : ℝ)
            = (r'.scoreNum : ℝ) / Real.sqrt (r'.scoreDenSq : ℝ) →
          List.indexOf r.file (dictKeys (IndexerState.mk [("a", [1]), ("b", [2])]
            [("a", ⟨"/p/a", ".py", 1⟩), ("b", ⟨"/p/b", ".py", 2⟩)]).embeddings)
            < List.indexOf r'.file (dictKeys (IndexerState.mk [("a", [1]),
                ("b", [2])] [("a", ⟨"/p/a", ".py", 1⟩),
                ("b", ⟨"/p/b", ".py", 2⟩)]).embeddings))) ∧
      ∀ r ∈ rs, ∃ v, dictLookup (IndexerState.mk [("a", [1]), ("b", [2])]
          [("a", ⟨"/p/a", ".py", 1⟩),
            ("b", ⟨"/p/b", ".py", 2⟩)]).embeddings r.file = some v ∧
        r.scoreNum = dot [1] v ∧ r.scoreDenSq = dot [1] [1] * dot v v) := by
  have h1 : (dictKeys (IndexerState.mk [("a", [1]), ("b", [2])]
      [("a", ⟨"/p/a", ".py", 1⟩),
        ("b", ⟨"/p/b", ".py", 2⟩)]).embeddings).Nodup := by decide
  have h2 : ∀ p ∈ dictKeys (IndexerState.mk [("a", [1]), ("b", [2])]
      [("a", ⟨"/p/a", ".py", 1⟩), ("b", ⟨"/p/b", ".py", 2⟩)]).embeddings,
      ∃ m, dictLookup (IndexerState.mk [("a", [1]), ("b", [2])]
        [("a", ⟨"/p/a", ".py", 1⟩), ("b", ⟨"/p/b", ".py", 2⟩)]).metadata p
          = some m := by
    intro p hp
    have hp' : p = "a" ∨ p = "b" := by simpa [dictKeys] using hp
    rcases hp' with rfl | rfl
    · exact ⟨⟨"/p/a", ".py", 1⟩, rfl⟩
    · exact ⟨⟨"/p/b", ".py", 2⟩, rfl⟩
  exact ⟨⟨h1, h2⟩, C1_search_top_k _ [1] 1 h1 h2⟩
